import Mathlib

/-!
# Verification of the case-poker card/hand core

Shallow embedding of the card model (`server/src/cards.rs`), the hand
container (`backend/server/src/hands/mod.rs`), the deck
(`backend/server/src/deck.rs`) and the classifier
(`server/src/hands/classify.rs`), together with proofs of the
specification's testable properties.
-/

namespace CasePoker

/-- `Suit` from `cards.rs`: one of the four suits. -/
inductive Suit where
  | Clubs
  | Diamonds
  | Hearts
  | Spades
deriving DecidableEq, Repr, Fintype

/-- `Rank` from `cards.rs`: the thirteen face values, in declaration order
Ace, Two, …, King (the derived Rust `Ord` orders them this way). -/
inductive Rank where
  | Ace
  | Two
  | Three
  | Four
  | Five
  | Six
  | Seven
  | Eight
  | Nine
  | Ten
  | Jack
  | Queen
  | King
deriving DecidableEq, Repr, Fintype

/-- `Rank::numeric` from `cards.rs`: Ace=1 … King=13 (a `u8` in the source;
all values fit in ℕ with no overflow). -/
def Rank.numeric : Rank → ℕ
  | .Ace => 1
  | .Two => 2
  | .Three => 3
  | .Four => 4
  | .Five => 5
  | .Six => 6
  | .Seven => 7
  | .Eight => 8
  | .Nine => 9
  | .Ten => 10
  | .Jack => 11
  | .Queen => 12
  | .King => 13

/-- The derived Rust `Ord` on `Rank` is declaration order, which coincides
with the order of `numeric`. -/
instance : LinearOrder Rank := LinearOrder.lift' Rank.numeric (by decide)

/-- `Card` from `cards.rs`: an immutable (rank, suit) pair. -/
structure Card where
  rank : Rank
  suit : Suit
deriving DecidableEq, Repr

instance : Fintype Card :=
  Fintype.ofEquiv (Rank × Suit)
    { toFun := fun p => ⟨p.1, p.2⟩
      invFun := fun c => (c.rank, c.suit)
      left_inv := fun _ => rfl
      right_inv := fun _ => rfl }

/-- `Card::new`. -/
def Card.new (rank : Rank) (suit : Suit) : Card := ⟨rank, suit⟩

/-- `TryFrom<char> for Suit` in `cards.rs`: 'r','s','k','h' map to
Diamonds, Spades, Clubs, Hearts; everything else is an error (`none`). -/
def Suit.tryFromChar : Char → Option Suit
  | 'r' => some .Diamonds
  | 's' => some .Spades
  | 'k' => some .Clubs
  | 'h' => some .Hearts
  | _ => none

/-- `TryFrom<char> for Rank` in `cards.rs`: '1'–'9' map to Ace–Nine,
't','j','q','k' to Ten, Jack, Queen, King; everything else is an error. -/
def Rank.tryFromChar : Char → Option Rank
  | '1' => some .Ace
  | '2' => some .Two
  | '3' => some .Three
  | '4' => some .Four
  | '5' => some .Five
  | '6' => some .Six
  | '7' => some .Seven
  | '8' => some .Eight
  | '9' => some .Nine
  | 't' => some .Ten
  | 'j' => some .Jack
  | 'q' => some .Queen
  | 'k' => some .King
  | _ => none

/-- `InvalidConversion` from `cards.rs`. -/
inductive InvalidConversion where
  | Length (n : ℕ)
  | Rank (c : Char)
  | Suit (c : Char)
deriving DecidableEq, Repr

/-- Number of bytes of the UTF-8 encoding of one unicode scalar value;
Rust's `str::len` counts bytes, i.e. sums this over the characters. -/
def utf8CharLen (c : Char) : ℕ :=
  if c.toNat < 0x80 then 1
  else if c.toNat < 0x800 then 2
  else if c.toNat < 0x10000 then 3
  else 4

/-- A Rust `&str` is modelled as its list of characters; `strLen` is the
source's `s.len()`, the UTF-8 byte length. -/
def strLen (s : List Char) : ℕ := (s.map utf8CharLen).sum

/-- `FromStr for Card` in `cards.rs`.  The two `chars.next().expect(...)`
calls are modelled in the `Option` layer: `none` is a panic of `expect`
(shown unreachable in `fromStr_ne_none`). -/
def Card.fromStr (s : List Char) : Option (Except InvalidConversion Card) :=
  if strLen s ≠ 2 then some (.error (.Length (strLen s)))
  else
    match s.head? with
    | none => none
    | some rankChar =>
      match Rank.tryFromChar rankChar with
      | none => some (.error (.Rank rankChar))
      | some rank =>
        match s.tail.head? with
        | none => none
        | some suitChar =>
          match Suit.tryFromChar suitChar with
          | none => some (.error (.Suit suitChar))
          | some suit => some (.ok (Card.new rank suit))

instance {ε α : Type} [DecidableEq ε] [DecidableEq α] : DecidableEq (Except ε α) :=
  fun x y =>
    match x, y with
    | .ok a, .ok b => decidable_of_iff (a = b) (by simp)
    | .ok _, .error _ => isFalse (by simp)
    | .error _, .ok _ => isFalse (by simp)
    | .error e, .error f => decidable_of_iff (e = f) (by simp)

/-- `HandCategory` from `hands/mod.rs`, declaration order ascending by
strength. -/
inductive HandCategory where
  | HighCard
  | OnePair
  | TwoPair
  | ThreeOfAKind
  | Straight
  | Flush
  | FullHouse
  | FourOfAKind
  | StraightFlush
deriving DecidableEq, Repr

/-- `Hand` from `hands/mod.rs`: a `HashSet<Card>` that, by construction,
holds exactly five (hence pairwise distinct) cards.  The `HashSet` is
modelled as a `Finset` with the invariant carried in the subtype. -/
def Hand := { s : Finset Card // s.card = 5 }

instance : DecidableEq Hand := Subtype.instDecidableEq

/-- `HandConstructionError` from `hands/mod.rs`. -/
inductive HandConstructionError where
  | Length (n : ℕ)
  | Uniqueness (n : ℕ)
deriving DecidableEq, Repr

/-- `TryFrom<&[Card]> for Hand` in `hands/mod.rs`: reject a slice whose
length is not 5, then build the `HashSet` (here `List.toFinset`) and
reject if fewer than 5 distinct cards remain. -/
def Hand.tryFrom (value : List Card) : Except HandConstructionError Hand :=
  if value.length ≠ 5 then .error (.Length value.length)
  else
    let hand := value.toFinset
    if hu : hand.card ≠ 5 then .error (.Uniqueness hand.card)
    else .ok ⟨hand, of_not_not hu⟩

/-- The key set of the `RankCount` map built by `Hand::count_ranks`:
exactly the ranks occurring in the hand. -/
def Hand.ranksPresent (h : Hand) : Finset Rank := h.1.image Card.rank

/-- The lookup function of the `RankCount` map built by
`Hand::count_ranks`: how many cards of the hand carry the given rank
(0 when the rank is absent from the map). -/
def Hand.count_ranks (h : Hand) (r : Rank) : ℕ :=
  (h.1.filter (fun c => c.rank = r)).card

/-- The key set of the `SuitCount` map built by `Hand::count_suits`. -/
def Hand.suitsPresent (h : Hand) : Finset Suit := h.1.image Card.suit

/-- The lookup function of the `SuitCount` map built by
`Hand::count_suits`. -/
def Hand.count_suits (h : Hand) (s : Suit) : ℕ :=
  (h.1.filter (fun c => c.suit = s)).card

/-- `is_flush` from `classify.rs`: `suit_count.len() == 1`. -/
def is_flush (h : Hand) : Prop := h.suitsPresent.card = 1

instance (h : Hand) : Decidable (is_flush h) := by unfold is_flush; infer_instance

/-- `ALL_RANKS` from `deck.rs`: the thirteen ranks listed in ascending
(declaration/`numeric`) order. -/
def ALL_RANKS : List Rank :=
  [.Ace, .Two, .Three, .Four, .Five, .Six, .Seven, .Eight, .Nine, .Ten,
   .Jack, .Queen, .King]

/-- The source's `rank_count.keys().copied().sorted()`: the key set sorted
ascending by the derived `Ord` (declaration order).  Implemented by
filtering the ascending enumeration of all ranks, which produces exactly
the ascending sorted list of the keys (`sortRanks_eq_sort` below equates
it with `Finset.sort`); this keeps the definition kernel-computable. -/
def sortRanks (keys : Finset Rank) : List Rank :=
  ALL_RANKS.filter (· ∈ keys)

/-- `is_straight` from `classify.rs`, factored through the rank key set it
actually consumes.  The early `return false` on `len() != 5` becomes the
first conjunct, and the indexing `ranks[0]`, `ranks[1]`, `ranks[4]`
(always in bounds: the sorted vector has length 5) becomes `getD`.  The
subtraction is on `u8` values sorted ascending, so it never underflows
and agrees with truncated ℕ subtraction. -/
def straightOfKeys (keys : Finset Rank) : Prop :=
  keys.card = 5 ∧
    (let ranks := sortRanks keys
     (ranks.getD 0 .Ace = Rank.Ace ∧ ranks.getD 1 .Ace = Rank.Ten) ∨
       (ranks.getD 4 .Ace).numeric - (ranks.getD 0 .Ace).numeric = 4)

instance (keys : Finset Rank) : Decidable (straightOfKeys keys) := by
  unfold straightOfKeys; infer_instance

/-- `is_straight` from `classify.rs`, applied to the hand's rank keys. -/
def is_straight (h : Hand) : Prop := straightOfKeys h.ranksPresent

instance (h : Hand) : Decidable (is_straight h) := by unfold is_straight; infer_instance

/-- `is_four_of_a_kind` from `classify.rs`:
`rank_count.values().any(|&v| v == 4)`. -/
def is_four_of_a_kind (h : Hand) : Prop :=
  ∃ r ∈ h.ranksPresent, h.count_ranks r = 4

instance (h : Hand) : Decidable (is_four_of_a_kind h) := by
  unfold is_four_of_a_kind; infer_instance

/-- `is_full_house` from `classify.rs`:
`rank_count.len() == 2 && rank_count.values().any(|&v| v == 2 || v == 3)`. -/
def is_full_house (h : Hand) : Prop :=
  h.ranksPresent.card = 2 ∧ ∃ r ∈ h.ranksPresent,
    (h.count_ranks r = 2 ∨ h.count_ranks r = 3)

instance (h : Hand) : Decidable (is_full_house h) := by
  unfold is_full_house; infer_instance

/-- `is_three_of_a_kind` from `classify.rs`:
`rank_count.values().any(|&v| v == 3)`. -/
def is_three_of_a_kind (h : Hand) : Prop :=
  ∃ r ∈ h.ranksPresent, h.count_ranks r = 3

instance (h : Hand) : Decidable (is_three_of_a_kind h) := by
  unfold is_three_of_a_kind; infer_instance

/-- `is_two_pair` from `classify.rs`:
`rank_count.values().filter(|&&v| v == 2).count() == 2`. -/
def is_two_pair (h : Hand) : Prop :=
  (h.ranksPresent.filter (fun r => h.count_ranks r = 2)).card = 2

instance (h : Hand) : Decidable (is_two_pair h) := by
  unfold is_two_pair; infer_instance

/-- `is_one_pair` from `classify.rs`:
`rank_count.values().any(|&v| v == 2)`. -/
def is_one_pair (h : Hand) : Prop :=
  ∃ r ∈ h.ranksPresent, h.count_ranks r = 2

instance (h : Hand) : Decidable (is_one_pair h) := by
  unfold is_one_pair; infer_instance

/-- `classify` from `classify.rs`: the fixed priority chain of predicate
tests, returning at the first satisfied one. -/
def classify (h : Hand) : HandCategory :=
  if is_straight h ∧ is_flush h then .StraightFlush
  else if is_four_of_a_kind h then .FourOfAKind
  else if is_full_house h then .FullHouse
  else if is_flush h then .Flush
  else if is_straight h then .Straight
  else if is_three_of_a_kind h then .ThreeOfAKind
  else if is_two_pair h then .TwoPair
  else if is_one_pair h then .OnePair
  else .HighCard

/-- `ALL_SUITS` from `deck.rs`. -/
def ALL_SUITS : List Suit := [.Clubs, .Diamonds, .Hearts, .Spades]

/-- `DECK` from `deck.rs`: suits × ranks (suits outermost, matching
`cartesian_product`), each pair mapped to `Card::new(rank, suit)`. -/
def DECK : List Card :=
  ALL_SUITS.flatMap (fun suit => ALL_RANKS.map (fun rank => Card.new rank suit))

instance : Inhabited Card := ⟨Card.new .Ace .Clubs⟩

/-- `SliceRandom::choose_multiple(rng, n)` on a slice: sample `n` elements
without replacement.  The rng is modelled as a stream of naturals; each
draw picks the index `rng i % pool.length` into the remaining pool and
removes the chosen element, which is exactly sampling without replacement
(rand's partial Fisher–Yates produces the same set of behaviours).  The
`getD` default is never used: the pool is non-empty at every pick. -/
def chooseMultiple (rng : ℕ → ℕ) : ℕ → List Card → List Card
  | 0, _ => []
  | n + 1, pool =>
    if pool.isEmpty then []
    else
      let k := rng n % pool.length
      pool.getD k default :: chooseMultiple rng n (pool.eraseIdx k)

/-- `draw_hand` from `deck.rs`: choose 5 cards from `DECK`, then
`Hand::try_from(..).expect(..)` — the `expect` panic is modelled as
`none` via `Except.toOption`. -/
def draw_hand (rng : ℕ → ℕ) : Option Hand :=
  (Hand.tryFrom (chooseMultiple rng 5 DECK)).toOption

/-! ### Spec-side definitions (written from the spec's words, for
comparison against the embedded code) -/

/-- The straight condition as the spec words it (§4.4 item 5): exactly five
distinct ranks which either form a run of five consecutive numeric values
under the default mapping, or are exactly {Ten, Jack, Queen, King, Ace}. -/
def straightSpec (keys : Finset Rank) : Prop :=
  keys.card = 5 ∧
    ((∃ lo : ℕ, keys.image Rank.numeric = Finset.Icc lo (lo + 4)) ∨
      keys = {Rank.Ten, Rank.Jack, Rank.Queen, Rank.King, Rank.Ace})

/-- The rank-character table, as the spec enumerates it. -/
def rankTable : List (Char × Rank) :=
  [('1', .Ace), ('2', .Two), ('3', .Three), ('4', .Four), ('5', .Five),
   ('6', .Six), ('7', .Seven), ('8', .Eight), ('9', .Nine), ('t', .Ten),
   ('j', .Jack), ('q', .Queen), ('k', .King)]

/-- The suit-character table, as the spec enumerates it. -/
def suitTable : List (Char × Suit) :=
  [('r', .Diamonds), ('s', .Spades), ('k', .Clubs), ('h', .Hearts)]

/-- `encodeRank`: each rank's defined character (the spec's encoding,
inverse to the parse table). -/
def encodeRank : Rank → Char
  | .Ace => '1'
  | .Two => '2'
  | .Three => '3'
  | .Four => '4'
  | .Five => '5'
  | .Six => '6'
  | .Seven => '7'
  | .Eight => '8'
  | .Nine => '9'
  | .Ten => 't'
  | .Jack => 'j'
  | .Queen => 'q'
  | .King => 'k'

/-- `encodeSuit`: each suit's defined character (the spec's encoding,
inverse to the parse table). -/
def encodeSuit : Suit → Char
  | .Diamonds => 'r'
  | .Spades => 's'
  | .Clubs => 'k'
  | .Hearts => 'h'

/-! ### Concrete hands and card lists used by the witnesses -/

/-- Four aces and a seven (spec scenario 3). -/
def fourAcesHand : Hand :=
  ⟨([Card.new .Ace .Spades, Card.new .Ace .Hearts, Card.new .Ace .Diamonds,
     Card.new .Ace .Clubs, Card.new .Seven .Hearts]).toFinset, by decide⟩

/-- A pair of aces and three sevens (spec scenario 4). -/
def fullHouseHand : Hand :=
  ⟨([Card.new .Ace .Spades, Card.new .Ace .Hearts, Card.new .Seven .Diamonds,
     Card.new .Seven .Clubs, Card.new .Seven .Hearts]).toFinset, by decide⟩

/-- King, Ace, Two, Three, Four (spec scenario 7, the non-wrap-around
regression hand). -/
def wrapAroundHand : Hand :=
  ⟨([Card.new .King .Clubs, Card.new .Ace .Hearts, Card.new .Two .Diamonds,
     Card.new .Three .Clubs, Card.new .Four .Hearts]).toFinset, by decide⟩

/-- A straight-flush hand, listed in one order … -/
def royalListA : List Card :=
  [Card.new .Ten .Clubs, Card.new .Jack .Clubs, Card.new .Queen .Clubs,
   Card.new .King .Clubs, Card.new .Ace .Clubs]

/-- … and the same five cards in reversed order. -/
def royalListB : List Card :=
  [Card.new .Ace .Clubs, Card.new .King .Clubs, Card.new .Queen .Clubs,
   Card.new .Jack .Clubs, Card.new .Ten .Clubs]

/-- A list with a duplicated Ace of Spades (spec scenario 2). -/
def dupCards : List Card :=
  [Card.new .Ace .Spades, Card.new .Ace .Spades, Card.new .Three .Hearts,
   Card.new .Four .Diamonds, Card.new .Five .Clubs]

/-! ### Basic facts about ranks, sorting, hands and the constructor -/

theorem Rank.numeric_injective : Function.Injective Rank.numeric := by decide

theorem ALL_RANKS_nodup : ALL_RANKS.Nodup := by decide

theorem ALL_RANKS_complete : ∀ r : Rank, r ∈ ALL_RANKS := by decide

theorem ALL_RANKS_sorted : ALL_RANKS.Sorted (· < ·) := by decide

theorem sortRanks_nodup (keys : Finset Rank) : (sortRanks keys).Nodup :=
  ALL_RANKS_nodup.filter _

theorem mem_sortRanks (keys : Finset Rank) (r : Rank) :
    r ∈ sortRanks keys ↔ r ∈ keys := by
  simp [sortRanks, ALL_RANKS_complete r]

theorem sortRanks_sorted (keys : Finset Rank) :
    (sortRanks keys).Sorted (· < ·) :=
  ALL_RANKS_sorted.filter _

theorem sortRanks_toFinset (keys : Finset Rank) :
    (sortRanks keys).toFinset = keys := by
  ext r
  simp [mem_sortRanks]

theorem sortRanks_length (keys : Finset Rank) :
    (sortRanks keys).length = keys.card := by
  conv_rhs => rw [← sortRanks_toFinset keys]
  exact (List.toFinset_card_of_nodup (sortRanks_nodup keys)).symm

/-- Fidelity of `sortRanks`: it is exactly `Finset.sort (· ≤ ·)`, the
ascending sort that models the source's `.sorted()`. -/
theorem sortRanks_eq_sort (keys : Finset Rank) :
    sortRanks keys = keys.sort (· ≤ ·) := by
  apply List.eq_of_perm_of_sorted (r := (· ≤ ·))
  · apply List.perm_of_nodup_nodup_toFinset_eq (sortRanks_nodup keys)
      (keys.sort_nodup (· ≤ ·))
    rw [sortRanks_toFinset]
    ext r
    simp [Finset.mem_sort]
  · exact (sortRanks_sorted keys).le_of_lt
  · exact keys.sort_sorted (· ≤ ·)

theorem Rank.lt_iff_numeric : ∀ a b : Rank, a < b ↔ a.numeric < b.numeric := by
  decide

theorem Rank.le_iff_numeric : ∀ a b : Rank, a ≤ b ↔ a.numeric ≤ b.numeric := by
  decide

theorem Rank.numeric_le_13 : ∀ r : Rank, r.numeric ≤ 13 := by decide

theorem Rank.one_le_numeric : ∀ r : Rank, 1 ≤ r.numeric := by decide

theorem list_length_eq_five {α : Type} (l : List α) (h : l.length = 5) :
    ∃ a b c d e, l = [a, b, c, d, e] := by
  cases l with
  | nil => simp at h
  | cons a t =>
  cases t with
  | nil => simp at h
  | cons b t =>
  cases t with
  | nil => simp at h
  | cons c t =>
  cases t with
  | nil => simp at h
  | cons d t =>
  cases t with
  | nil => simp at h
  | cons e t =>
  cases t with
  | nil => exact ⟨a, b, c, d, e, rfl⟩
  | cons f t => simp at h

theorem Hand.tryFrom_eq_error_length {cards : List Card} (hne : cards.length ≠ 5) :
    Hand.tryFrom cards = .error (.Length cards.length) := by
  simp [Hand.tryFrom, hne]

theorem Hand.tryFrom_eq_error_uniqueness {cards : List Card}
    (hlen : cards.length = 5) (hc : cards.toFinset.card ≠ 5) :
    Hand.tryFrom cards = .error (.Uniqueness cards.toFinset.card) := by
  simp [Hand.tryFrom, hlen, hc]

theorem Hand.tryFrom_eq_ok {cards : List Card}
    (hlen : cards.length = 5) (hc : cards.toFinset.card = 5) :
    Hand.tryFrom cards = .ok ⟨cards.toFinset, hc⟩ := by
  simp [Hand.tryFrom, hlen, hc]

theorem List.toFinset_card_eq_length_iff_nodup {α : Type} [DecidableEq α]
    (l : List α) : l.toFinset.card = l.length ↔ l.Nodup := by
  constructor
  · intro hcard
    rw [List.card_toFinset] at hcard
    have hsub := l.dedup_sublist
    rw [← List.dedup_eq_self]
    exact hsub.eq_of_length hcard
  · intro hnd
    exact List.toFinset_card_of_nodup hnd

/-- The counts recorded by `count_ranks` sum to the hand's size, 5. -/
theorem Hand.sum_count_ranks (h : Hand) :
    ∑ r ∈ h.ranksPresent, h.count_ranks r = 5 := by
  have := Finset.card_eq_sum_card_image Card.rank h.1
  rw [h.2] at this
  exact this.symm

/-- A rank is a key of the `count_ranks` map exactly when its count is
positive. -/
theorem Hand.mem_ranksPresent_iff (h : Hand) (r : Rank) :
    r ∈ h.ranksPresent ↔ 1 ≤ h.count_ranks r := by
  unfold Hand.ranksPresent Hand.count_ranks
  constructor
  · intro hr
    obtain ⟨c, hc, hcr⟩ := Finset.mem_image.mp hr
    have : c ∈ h.1.filter (fun c => c.rank = r) := Finset.mem_filter.mpr ⟨hc, hcr⟩
    exact Finset.card_pos.mpr ⟨c, this⟩
  · intro hpos
    obtain ⟨c, hc⟩ := Finset.card_pos.mp hpos
    obtain ⟨hcm, hcr⟩ := Finset.mem_filter.mp hc
    exact Finset.mem_image.mpr ⟨c, hcm, hcr⟩

/-- Each count is at most 4 would need suit-distinctness; what we do need:
a hand with a rank counted 4 times cannot have 5 distinct ranks. -/
theorem Hand.not_straight_of_four (h : Hand) (h4 : is_four_of_a_kind h) :
    ¬ is_straight h := by
  rintro ⟨h5, -⟩
  obtain ⟨r, hr, hr4⟩ := h4
  have hsum := h.sum_count_ranks
  rw [← Finset.add_sum_erase _ _ hr, hr4] at hsum
  have hcard : (h.ranksPresent.erase r).card = 4 := by
    rw [Finset.card_erase_of_mem hr, h5]
  have hge : (h.ranksPresent.erase r).card ≤
      ∑ x ∈ h.ranksPresent.erase r, h.count_ranks x := by
    rw [Finset.card_eq_sum_ones]
    apply Finset.sum_le_sum
    intro x hx
    exact (h.mem_ranksPresent_iff x).mp (Finset.mem_of_mem_erase hx)
  omega

/-! ### Characterization of the `classify` priority chain -/

/-- Each output of `classify` holds exactly when its predicate fires and no
earlier predicate in the chain does. -/
theorem classify_chain (h : Hand) :
    (classify h = .StraightFlush ↔ (is_straight h ∧ is_flush h)) ∧
    (classify h = .FourOfAKind ↔
      (¬(is_straight h ∧ is_flush h) ∧ is_four_of_a_kind h)) ∧
    (classify h = .FullHouse ↔
      (¬(is_straight h ∧ is_flush h) ∧ ¬is_four_of_a_kind h ∧ is_full_house h)) ∧
    (classify h = .Flush ↔
      (¬(is_straight h ∧ is_flush h) ∧ ¬is_four_of_a_kind h ∧ ¬is_full_house h ∧
        is_flush h)) ∧
    (classify h = .Straight ↔
      (¬(is_straight h ∧ is_flush h) ∧ ¬is_four_of_a_kind h ∧ ¬is_full_house h ∧
        ¬is_flush h ∧ is_straight h)) ∧
    (classify h = .ThreeOfAKind ↔
      (¬(is_straight h ∧ is_flush h) ∧ ¬is_four_of_a_kind h ∧ ¬is_full_house h ∧
        ¬is_flush h ∧ ¬is_straight h ∧ is_three_of_a_kind h)) ∧
    (classify h = .TwoPair ↔
      (¬(is_straight h ∧ is_flush h) ∧ ¬is_four_of_a_kind h ∧ ¬is_full_house h ∧
        ¬is_flush h ∧ ¬is_straight h ∧ ¬is_three_of_a_kind h ∧ is_two_pair h)) ∧
    (classify h = .OnePair ↔
      (¬(is_straight h ∧ is_flush h) ∧ ¬is_four_of_a_kind h ∧ ¬is_full_house h ∧
        ¬is_flush h ∧ ¬is_straight h ∧ ¬is_three_of_a_kind h ∧ ¬is_two_pair h ∧
        is_one_pair h)) ∧
    (classify h = .HighCard ↔
      (¬(is_straight h ∧ is_flush h) ∧ ¬is_four_of_a_kind h ∧ ¬is_full_house h ∧
        ¬is_flush h ∧ ¬is_straight h ∧ ¬is_three_of_a_kind h ∧ ¬is_two_pair h ∧
        ¬is_one_pair h)) := by
  unfold classify
  split_ifs <;> simp_all

/-! ### The straight predicate, characterized by the spec's two cases -/

theorem straightOfKeys_iff_spec (keys : Finset Rank) :
    straightOfKeys keys ↔ straightSpec keys := by
  unfold straightOfKeys straightSpec
  by_cases h5 : keys.card = 5
  swap
  · simp [h5]
  simp only [h5, true_and]
  have hlen : (sortRanks keys).length = 5 := by rw [sortRanks_length, h5]
  obtain ⟨a, b, c, d, e, hl⟩ := list_length_eq_five _ hlen
  have hkeys : keys = ({a, b, c, d, e} : Finset Rank) := by
    conv_lhs => rw [← sortRanks_toFinset keys, hl]
    simp
  have hsort := sortRanks_sorted keys
  rw [hl] at hsort
  simp only [List.sorted_cons, List.mem_cons, List.mem_singleton,
    List.not_mem_nil, or_false, forall_eq_or_imp, forall_eq,
    List.sorted_nil, and_true] at hsort
  obtain ⟨⟨hab, hac, had, hae⟩, ⟨hbc, hbd, hbe⟩, ⟨hcd, hce⟩, hde, -⟩ := hsort
  rw [hl]
  simp only [List.getD_cons_succ, List.getD_cons_zero]
  constructor
  · rintro (⟨ha, hb⟩ | hdiff)
    · right
      subst ha
      subst hb
      have hc : c = Rank.Jack := by
        have h1 := (Rank.lt_iff_numeric _ _).mp hbc
        have h2 := (Rank.lt_iff_numeric _ _).mp hcd
        have h3 := (Rank.lt_iff_numeric _ _).mp hde
        have h4 := Rank.numeric_le_13 e
        have hT : Rank.numeric Rank.Ten = 10 := rfl
        apply Rank.numeric_injective
        show Rank.numeric c = 11
        omega
      have hd : d = Rank.Queen := by
        have h1 := (Rank.lt_iff_numeric _ _).mp hbc
        have h2 := (Rank.lt_iff_numeric _ _).mp hcd
        have h3 := (Rank.lt_iff_numeric _ _).mp hde
        have h4 := Rank.numeric_le_13 e
        have hT : Rank.numeric Rank.Ten = 10 := rfl
        apply Rank.numeric_injective
        show Rank.numeric d = 12
        omega
      have he : e = Rank.King := by
        have h1 := (Rank.lt_iff_numeric _ _).mp hbc
        have h2 := (Rank.lt_iff_numeric _ _).mp hcd
        have h3 := (Rank.lt_iff_numeric _ _).mp hde
        have h4 := Rank.numeric_le_13 e
        have hT : Rank.numeric Rank.Ten = 10 := rfl
        apply Rank.numeric_injective
        show Rank.numeric e = 13
        omega
      subst hc
      subst hd
      subst he
      rw [hkeys]
      decide
    · left
      refine ⟨a.numeric, ?_⟩
      have h1 := (Rank.lt_iff_numeric _ _).mp hab
      have h2 := (Rank.lt_iff_numeric _ _).mp hbc
      have h3 := (Rank.lt_iff_numeric _ _).mp hcd
      have h4 := (Rank.lt_iff_numeric _ _).mp hde
      have hb' : b.numeric = a.numeric + 1 := by omega
      have hc' : c.numeric = a.numeric + 2 := by omega
      have hd' : d.numeric = a.numeric + 3 := by omega
      have he' : e.numeric = a.numeric + 4 := by omega
      rw [hkeys]
      ext x
      simp only [Finset.image_insert, Finset.image_singleton, Finset.mem_insert,
        Finset.mem_singleton, Finset.mem_Icc, hb', hc', hd', he']
      omega
  · rintro (⟨lo, hIcc⟩ | hTJQKA)
    · right
      have hmem : ∀ x : Rank, x ∈ keys ↔ (x = a ∨ x = b ∨ x = c ∨ x = d ∨ x = e) := by
        intro x
        rw [hkeys]
        simp
      have haI : a.numeric ∈ Finset.Icc lo (lo + 4) := by
        rw [← hIcc]
        exact Finset.mem_image_of_mem _ ((hmem a).mpr (Or.inl rfl))
      have heI : e.numeric ∈ Finset.Icc lo (lo + 4) := by
        rw [← hIcc]
        exact Finset.mem_image_of_mem _
          ((hmem e).mpr (Or.inr (Or.inr (Or.inr (Or.inr rfl)))))
      have hloI : lo ∈ keys.image Rank.numeric := by
        rw [hIcc]
        simp
      have hhiI : lo + 4 ∈ keys.image Rank.numeric := by
        rw [hIcc]
        simp
      obtain ⟨r, hrK, hrnum⟩ := Finset.mem_image.mp hloI
      obtain ⟨r', hrK', hrnum'⟩ := Finset.mem_image.mp hhiI
      have h1 := (Rank.lt_iff_numeric a b).mp hab
      have h2 := (Rank.lt_iff_numeric b c).mp hbc
      have h3 := (Rank.lt_iff_numeric c d).mp hcd
      have h4 := (Rank.lt_iff_numeric d e).mp hde
      have h5' := (Rank.lt_iff_numeric a c).mp hac
      have h6 := (Rank.lt_iff_numeric a d).mp had
      have h7 := (Rank.lt_iff_numeric a e).mp hae
      have h8 := (Rank.lt_iff_numeric b d).mp hbd
      have h9 := (Rank.lt_iff_numeric b e).mp hbe
      have h10 := (Rank.lt_iff_numeric c e).mp hce
      have hra : a.numeric ≤ r.numeric := by
        rcases (hmem r).mp hrK with rfl | rfl | rfl | rfl | rfl <;> omega
      have hre : r'.numeric ≤ e.numeric := by
        rcases (hmem r').mp hrK' with rfl | rfl | rfl | rfl | rfl <;> omega
      simp only [Finset.mem_Icc] at haI heI
      omega
    · left
      have hcomp :
          sortRanks ({Rank.Ten, Rank.Jack, Rank.Queen, Rank.King, Rank.Ace} :
            Finset Rank) = [Rank.Ace, Rank.Ten, Rank.Jack, Rank.Queen, Rank.King] := by
        decide
      rw [hTJQKA, hcomp] at hl
      have hl5 : Rank.Ace = a ∧ Rank.Ten = b ∧ Rank.Jack = c ∧ Rank.Queen = d ∧
          Rank.King = e := by simpa using hl
      exact ⟨hl5.1.symm, hl5.2.1.symm⟩

/-! ### Parser facts -/

theorem Rank.tryFromChar_matches_rankTable (c : Char) (r : Rank) :
    Rank.tryFromChar c = some r ↔ (c, r) ∈ rankTable := by
  constructor
  · intro htc
    unfold Rank.tryFromChar at htc
    split at htc <;> simp_all [rankTable]
  · intro hmem
    fin_cases hmem <;> rfl

theorem Suit.tryFromChar_matches_suitTable (c : Char) (s : Suit) :
    Suit.tryFromChar c = some s ↔ (c, s) ∈ suitTable := by
  constructor
  · intro htc
    unfold Suit.tryFromChar at htc
    split at htc <;> simp_all [suitTable]
  · intro hmem
    fin_cases hmem <;> rfl

/-- Every recognized rank character is ASCII (one UTF-8 byte). -/
theorem Rank.tryFromChar_ascii (c : Char) (r : Rank)
    (h : Rank.tryFromChar c = some r) : c.toNat < 0x80 := by
  unfold Rank.tryFromChar at h
  split at h <;> first | decide | exact absurd h (by simp)

theorem utf8CharLen_pos (c : Char) : 1 ≤ utf8CharLen c := by
  unfold utf8CharLen
  split_ifs <;> omega

theorem utf8CharLen_eq_one (c : Char) (h : c.toNat < 0x80) :
    utf8CharLen c = 1 := by
  simp [utf8CharLen, h]

theorem utf8CharLen_ge_two (c : Char) (h : 0x80 ≤ c.toNat) :
    2 ≤ utf8CharLen c := by
  unfold utf8CharLen
  split_ifs <;> omega

theorem strLen_cons (c : Char) (t : List Char) :
    strLen (c :: t) = utf8CharLen c + strLen t := by
  simp [strLen]

theorem strLen_nil : strLen [] = 0 := rfl

/-- The `Length` error fires exactly on inputs whose byte length is not 2,
and it always reports the byte length. -/
theorem Card.fromStr_length_error (s : List Char) :
    Card.fromStr s = some (.error (.Length (strLen s))) ↔ strLen s ≠ 2 := by
  unfold Card.fromStr
  by_cases h2 : strLen s = 2
  · simp only [h2, ne_eq, not_true_eq_false, if_false]
    constructor
    · intro h
      split at h <;> try simp_all
      split at h <;> try simp_all
      split at h <;> try simp_all
      split at h <;> simp_all
    · intro h
      exact h.elim
  · simp [h2]

/-- The two `expect` calls in `from_str` never panic. -/
theorem Card.fromStr_ne_none (s : List Char) : Card.fromStr s ≠ none := by
  unfold Card.fromStr
  by_cases h2 : strLen s = 2
  · simp only [h2, ne_eq, not_true_eq_false, if_false]
    cases s with
    | nil => simp [strLen] at h2
    | cons c0 t =>
      simp only [List.head?_cons]
      cases htc : Rank.tryFromChar c0 with
      | none => simp
      | some rank =>
        have hascii := Rank.tryFromChar_ascii c0 rank htc
        have hlen0 := utf8CharLen_eq_one c0 hascii
        rw [strLen_cons, hlen0] at h2
        cases t with
        | nil => rw [strLen_nil] at h2; omega
        | cons c1 t' =>
          simp only [List.tail_cons, List.head?_cons]
          cases Suit.tryFromChar c1 <;> simp
  · simp [h2]

/-! ### Sampling without replacement -/

theorem chooseMultiple_length (rng : ℕ → ℕ) :
    ∀ (n : ℕ) (pool : List Card),
      (chooseMultiple rng n pool).length = min n pool.length := by
  intro n
  induction n with
  | zero => intro pool; simp [chooseMultiple]
  | succ n ih =>
    intro pool
    unfold chooseMultiple
    by_cases hp : pool.isEmpty
    · have : pool = [] := List.isEmpty_iff.mp hp
      subst this
      simp
    · have hne : pool ≠ [] := fun he => hp (by simp [he])
      have hpos : 0 < pool.length := List.length_pos.mpr hne
      have hk : rng n % pool.length < pool.length := Nat.mod_lt _ hpos
      simp only [hp, Bool.false_eq_true, if_false, List.length_cons, ih]
      rw [List.length_eraseIdx_of_lt hk]
      omega

theorem chooseMultiple_subset (rng : ℕ → ℕ) :
    ∀ (n : ℕ) (pool : List Card), ∀ c ∈ chooseMultiple rng n pool, c ∈ pool := by
  intro n
  induction n with
  | zero => intro pool c hc; simp [chooseMultiple] at hc
  | succ n ih =>
    intro pool c hc
    unfold chooseMultiple at hc
    by_cases hp : pool.isEmpty
    · simp [hp] at hc
    · have hne : pool ≠ [] := fun he => hp (by simp [he])
      have hpos : 0 < pool.length := List.length_pos.mpr hne
      have hk : rng n % pool.length < pool.length := Nat.mod_lt _ hpos
      simp only [hp, Bool.false_eq_true, if_false, List.mem_cons] at hc
      rcases hc with rfl | hc
      · rw [List.getD_eq_getElem _ _ hk]
        exact List.getElem_mem hk
      · exact List.eraseIdx_subset _ _ (ih _ _ hc)

theorem chooseMultiple_nodup (rng : ℕ → ℕ) :
    ∀ (n : ℕ) (pool : List Card), pool.Nodup →
      (chooseMultiple rng n pool).Nodup := by
  intro n
  induction n with
  | zero => intro pool _; simp [chooseMultiple]
  | succ n ih =>
    intro pool hnd
    unfold chooseMultiple
    by_cases hp : pool.isEmpty
    · simp [hp]
    · have hne : pool ≠ [] := fun he => hp (by simp [he])
      have hpos : 0 < pool.length := List.length_pos.mpr hne
      have hk : rng n % pool.length < pool.length := Nat.mod_lt _ hpos
      simp only [hp, Bool.false_eq_true, if_false, List.nodup_cons]
      refine ⟨?_, ih _ (hnd.eraseIdx _)⟩
      intro hmem
      have hmem' := chooseMultiple_subset rng n _ _ hmem
      rw [List.getD_eq_getElem _ _ hk] at hmem'
      obtain ⟨i, hi, hik, hieq⟩ := List.mem_eraseIdx_iff_getElem.mp hmem'
      exact hik ((hnd.getElem_inj_iff).mp hieq)

theorem DECK_nodup : DECK.Nodup := by decide

theorem DECK_length : DECK.length = 52 := by decide

/-- The deck is the whole 52-card domain: every card occurs in it. -/
theorem DECK_complete : ∀ c : Card, c ∈ DECK := by decide

/-! ### The claims -/

/-- C1: for every valid Hand, `classify` returns exactly one category,
determined by the fixed priority chain StraightFlush, FourOfAKind,
FullHouse, Flush, Straight, ThreeOfAKind, TwoPair, OnePair, HighCard,
returning on the first satisfied predicate; hence a hand satisfying a
stronger category's conditions is never reported as a weaker one — in
particular a four-of-a-kind hand is classified FourOfAKind, never
FullHouse, ThreeOfAKind, TwoPair or OnePair. -/
theorem classify_priority_chain (h : Hand) :
    ((classify h = .StraightFlush ↔ (is_straight h ∧ is_flush h)) ∧
     (classify h = .FourOfAKind ↔
       (¬(is_straight h ∧ is_flush h) ∧ is_four_of_a_kind h)) ∧
     (classify h = .FullHouse ↔
       (¬(is_straight h ∧ is_flush h) ∧ ¬is_four_of_a_kind h ∧ is_full_house h)) ∧
     (classify h = .Flush ↔
       (¬(is_straight h ∧ is_flush h) ∧ ¬is_four_of_a_kind h ∧ ¬is_full_house h ∧
         is_flush h)) ∧
     (classify h = .Straight ↔
       (¬(is_straight h ∧ is_flush h) ∧ ¬is_four_of_a_kind h ∧ ¬is_full_house h ∧
         ¬is_flush h ∧ is_straight h)) ∧
     (classify h = .ThreeOfAKind ↔
       (¬(is_straight h ∧ is_flush h) ∧ ¬is_four_of_a_kind h ∧ ¬is_full_house h ∧
         ¬is_flush h ∧ ¬is_straight h ∧ is_three_of_a_kind h)) ∧
     (classify h = .TwoPair ↔
       (¬(is_straight h ∧ is_flush h) ∧ ¬is_four_of_a_kind h ∧ ¬is_full_house h ∧
         ¬is_flush h ∧ ¬is_straight h ∧ ¬is_three_of_a_kind h ∧ is_two_pair h)) ∧
     (classify h = .OnePair ↔
       (¬(is_straight h ∧ is_flush h) ∧ ¬is_four_of_a_kind h ∧ ¬is_full_house h ∧
         ¬is_flush h ∧ ¬is_straight h ∧ ¬is_three_of_a_kind h ∧ ¬is_two_pair h ∧
         is_one_pair h)) ∧
     (classify h = .HighCard ↔
       (¬(is_straight h ∧ is_flush h) ∧ ¬is_four_of_a_kind h ∧ ¬is_full_house h ∧
         ¬is_flush h ∧ ¬is_straight h ∧ ¬is_three_of_a_kind h ∧ ¬is_two_pair h ∧
         ¬is_one_pair h))) ∧
    (is_four_of_a_kind h →
      classify h = .FourOfAKind ∧ classify h ≠ .FullHouse ∧
        classify h ≠ .ThreeOfAKind ∧ classify h ≠ .TwoPair ∧
        classify h ≠ .OnePair) := by
  refine ⟨classify_chain h, fun h4 => ?_⟩
  have hns := Hand.not_straight_of_four h h4
  have hnsf : ¬(is_straight h ∧ is_flush h) := fun hsf => hns hsf.1
  have heq : classify h = .FourOfAKind := ((classify_chain h).2.1).mpr ⟨hnsf, h4⟩
  exact ⟨heq, by simp [heq], by simp [heq], by simp [heq], by simp [heq]⟩

theorem classify_priority_chain_witness :
    classify fourAcesHand = .FourOfAKind ∧ classify fourAcesHand ≠ .FullHouse ∧
      classify fourAcesHand ≠ .ThreeOfAKind ∧ classify fourAcesHand ≠ .TwoPair ∧
      classify fourAcesHand ≠ .OnePair :=
  (classify_priority_chain fourAcesHand).2 (by decide)

/-- C2: the classifier's straight predicate holds iff the hand has exactly
5 distinct ranks which either form a run of 5 consecutive numeric values
(covering the Ace-low straight) or are exactly {Ten, Jack, Queen, King,
Ace}; no other rank set wraps around Ace — in particular {King, Ace, Two,
Three, Four} is not a straight. -/
theorem is_straight_two_cases (h : Hand) :
    (is_straight h ↔
      (h.ranksPresent.card = 5 ∧
        ((∃ lo : ℕ, h.ranksPresent.image Rank.numeric = Finset.Icc lo (lo + 4)) ∨
          h.ranksPresent = {Rank.Ten, Rank.Jack, Rank.Queen, Rank.King, Rank.Ace}))) ∧
    (h.ranksPresent = {Rank.King, Rank.Ace, Rank.Two, Rank.Three, Rank.Four} →
      ¬ is_straight h) := by
  constructor
  · exact straightOfKeys_iff_spec h.ranksPresent
  · intro hK hstr
    have hspec := (straightOfKeys_iff_spec h.ranksPresent).mp hstr
    rw [hK] at hspec
    rcases hspec.2 with ⟨lo, hIcc⟩ | heq
    · have h13 : (13 : ℕ) ∈ Finset.Icc lo (lo + 4) := by
        rw [← hIcc]
        decide
      have h1 : (1 : ℕ) ∈ Finset.Icc lo (lo + 4) := by
        rw [← hIcc]
        decide
      simp only [Finset.mem_Icc] at h13 h1
      omega
    · exact absurd heq (by decide)

theorem is_straight_two_cases_witness : ¬ is_straight wrapAroundHand :=
  (is_straight_two_cases wrapAroundHand).2 (by decide)

/-- C3: `Hand::try_from` succeeds iff the input is exactly 5 pairwise
distinct cards; a wrong length fails with the `Length` error carrying the
actual length (taking precedence), and otherwise fewer than 5 distinct
cards fails with the `Uniqueness` error carrying the distinct count. -/
theorem build_hand_five_distinct (cards : List Card) :
    ((∃ h, Hand.tryFrom cards = .ok h) ↔ (cards.length = 5 ∧ cards.Nodup)) ∧
    (cards.length ≠ 5 → Hand.tryFrom cards = .error (.Length cards.length)) ∧
    (cards.length = 5 → cards.toFinset.card < 5 →
      Hand.tryFrom cards = .error (.Uniqueness cards.toFinset.card)) := by
  refine ⟨?_, fun hne => Hand.tryFrom_eq_error_length hne,
    fun hlen hlt => Hand.tryFrom_eq_error_uniqueness hlen (by omega)⟩
  constructor
  · rintro ⟨h, hok⟩
    by_cases hlen : cards.length = 5
    · refine ⟨hlen, ?_⟩
      by_cases hcard : cards.toFinset.card = 5
      · rw [← List.toFinset_card_eq_length_iff_nodup, hcard, hlen]
      · rw [Hand.tryFrom_eq_error_uniqueness hlen hcard] at hok
        exact absurd hok (by simp)
    · rw [Hand.tryFrom_eq_error_length hlen] at hok
      exact absurd hok (by simp)
  · rintro ⟨hlen, hnd⟩
    have hcard : cards.toFinset.card = 5 := by
      rw [(List.toFinset_card_eq_length_iff_nodup cards).mpr hnd, hlen]
    exact ⟨_, Hand.tryFrom_eq_ok hlen hcard⟩

theorem build_hand_five_distinct_witness :
    Hand.tryFrom dupCards = .error (.Uniqueness 4) ∧
    Hand.tryFrom (dupCards.take 4) = .error (.Length 4) ∧
    (∃ h, Hand.tryFrom royalListA = .ok h) := by
  refine ⟨?_, ?_, ?_⟩
  · exact (build_hand_five_distinct dupCards).2.2 (by decide) (by decide)
  · exact (build_hand_five_distinct (dupCards.take 4)).2.1 (by decide)
  · exact (build_hand_five_distinct royalListA).1.mpr (by decide)

/-- C4: on a hand spanning exactly 2 distinct ranks (whose multiplicities
then sum to 5), `classify` returns FourOfAKind exactly when some rank's
frequency is 4, and otherwise returns FullHouse exactly when some
frequency is 2 or 3. -/
theorem two_rank_hands_classify (h : Hand) (h2 : h.ranksPresent.card = 2) :
    (∑ r ∈ h.ranksPresent, h.count_ranks r = 5) ∧
    (classify h = .FourOfAKind ↔ (∃ r ∈ h.ranksPresent, h.count_ranks r = 4)) ∧
    ((¬ ∃ r ∈ h.ranksPresent, h.count_ranks r = 4) →
      (classify h = .FullHouse ↔
        (∃ r ∈ h.ranksPresent, (h.count_ranks r = 2 ∨ h.count_ranks r = 3)))) := by
  have hns : ¬ is_straight h := by
    intro hstr
    have h5 : h.ranksPresent.card = 5 := hstr.1
    rw [h2] at h5
    exact absurd h5 (by omega)
  have hnsf : ¬(is_straight h ∧ is_flush h) := fun hsf => hns hsf.1
  refine ⟨h.sum_count_ranks, ?_, ?_⟩
  · rw [(classify_chain h).2.1]
    simp [hnsf, is_four_of_a_kind]
  · intro h4
    have hnf : ¬ is_four_of_a_kind h := h4
    rw [(classify_chain h).2.2.1]
    simp [hnsf, hnf, is_full_house, h2]

theorem two_rank_hands_classify_witness :
    classify fullHouseHand = .FullHouse ∧ classify fourAcesHand = .FourOfAKind := by
  constructor
  · exact ((two_rank_hands_classify fullHouseHand (by decide)).2.2
      (by decide)).mpr (by decide)
  · exact ((two_rank_hands_classify fourAcesHand (by decide)).2.1).mpr (by decide)

/-- C5: `parse_card` fails with `Length` (carrying the actual length)
exactly when the text's length is not 2; otherwise the first character is
parsed as a rank and the second as a suit against exactly the enumerated
lowercase tables, failing with `Rank`/`Suit` carrying the offending
character, and succeeding with the corresponding card; no trimming or
case normalization, and the `expect`s never panic. -/
theorem parse_card_spec (s : List Char) :
    (Card.fromStr s = some (.error (.Length (strLen s))) ↔ strLen s ≠ 2) ∧
    (∀ c0 c1 : Char, s = [c0, c1] → strLen s = 2 →
      Card.fromStr s = some
        (match Rank.tryFromChar c0 with
         | none => .error (.Rank c0)
         | some rank =>
           match Suit.tryFromChar c1 with
           | none => .error (.Suit c1)
           | some suit => .ok (Card.new rank suit))) ∧
    (∀ c : Char, s = [c] → strLen s = 2 →
      Card.fromStr s = some (.error (.Rank c))) ∧
    (Card.fromStr s ≠ none) ∧
    (∀ c r, Rank.tryFromChar c = some r ↔ (c, r) ∈ rankTable) ∧
    (∀ c su, Suit.tryFromChar c = some su ↔ (c, su) ∈ suitTable) := by
  refine ⟨Card.fromStr_length_error s, ?_, ?_, Card.fromStr_ne_none s,
    Rank.tryFromChar_matches_rankTable, Suit.tryFromChar_matches_suitTable⟩
  · rintro c0 c1 rfl h2
    unfold Card.fromStr
    simp only [h2, ne_eq, not_true_eq_false, if_false, List.head?_cons,
      List.tail_cons]
    rcases Rank.tryFromChar c0 with - | rank
    · rfl
    · rcases Suit.tryFromChar c1 with - | suit <;> rfl
  · rintro c rfl h2
    have hnr : Rank.tryFromChar c = none := by
      cases htc : Rank.tryFromChar c with
      | none => rfl
      | some r =>
        have hascii := Rank.tryFromChar_ascii c r htc
        have h1 := utf8CharLen_eq_one c hascii
        rw [strLen_cons, strLen_nil, h1] at h2
        exact absurd h2 (by omega)
    unfold Card.fromStr
    simp [h2, hnr]

theorem parse_card_spec_witness :
    Card.fromStr ['0', 'k'] = some (.error (.Rank '0')) ∧
    Card.fromStr ['1', 'p'] = some (.error (.Suit 'p')) ∧
    Card.fromStr [] = some (.error (.Length 0)) ∧
    Card.fromStr ['t', 'k', 'k'] = some (.error (.Length 3)) := by
  refine ⟨?_, ?_, ?_, ?_⟩
  · exact (parse_card_spec ['0', 'k']).2.1 '0' 'k' rfl (by decide)
  · exact (parse_card_spec ['1', 'p']).2.1 '1' 'p' rfl (by decide)
  · exact (parse_card_spec []).1.mpr (by decide)
  · exact (parse_card_spec ['t', 'k', 'k']).1.mpr (by decide)

/-- C6: `draw_hand` always succeeds (the `expect` failure branch is
unreachable): for every rng behaviour it returns a Hand of 5 pairwise
distinct cards, each drawn from the 52-card deck, which itself is the
duplicate-free Cartesian product of the 4 suits and 13 ranks. -/
theorem draw_random_hand_total :
    (∀ rng : ℕ → ℕ, ∃ h : Hand,
      draw_hand rng = some h ∧ h.1.card = 5 ∧ ∀ c ∈ h.1, c ∈ DECK) ∧
    DECK.length = 52 ∧ DECK.Nodup ∧ (∀ c : Card, c ∈ DECK) := by
  refine ⟨?_, DECK_length, DECK_nodup, DECK_complete⟩
  intro rng
  have hnd := chooseMultiple_nodup rng 5 DECK DECK_nodup
  have hlen : (chooseMultiple rng 5 DECK).length = 5 := by
    rw [chooseMultiple_length, DECK_length]
    omega
  have hcard : (chooseMultiple rng 5 DECK).toFinset.card = 5 := by
    rw [List.toFinset_card_of_nodup hnd, hlen]
  refine ⟨⟨_, hcard⟩, ?_, hcard, ?_⟩
  · unfold draw_hand
    rw [Hand.tryFrom_eq_ok hlen hcard]
    rfl
  · intro c hc
    exact chooseMultiple_subset rng 5 DECK c (List.mem_toFinset.mp hc)

theorem draw_random_hand_total_witness : draw_hand (fun _ => 0) ≠ none := by
  obtain ⟨h, hsome, -, -⟩ := draw_random_hand_total.1 (fun _ => 0)
  simp [hsome]

/-- C7: for each of the 52 cards, encoding its rank and suit to their
defined characters and parsing the 2-character string back yields the
original card. -/
theorem parse_roundtrip :
    ∀ card : Card,
      Card.fromStr [encodeRank card.rank, encodeSuit card.suit] =
        some (.ok card) := by
  decide

/-- C9: `classify` is deterministic and depends only on the set of cards:
repeated calls agree, and hands built from any two orderings of the same
5 cards classify identically. -/
theorem classify_permutation_invariant :
    ∀ (h : Hand) (l1 l2 : List Card),
      (classify h = classify h) ∧
      (l1.Perm l2 →
        (Hand.tryFrom l1).map classify = (Hand.tryFrom l2).map classify) := by
  intro h l1 l2
  refine ⟨rfl, fun hperm => ?_⟩
  have hlen := hperm.length_eq
  have htf := List.toFinset_eq_of_perm l1 l2 hperm
  by_cases h5 : l1.length = 5
  · by_cases hc : l1.toFinset.card = 5
    · rw [Hand.tryFrom_eq_ok h5 hc, Hand.tryFrom_eq_ok (by omega) (htf ▸ hc)]
      have heq : (⟨l1.toFinset, hc⟩ : Hand) = ⟨l2.toFinset, htf ▸ hc⟩ :=
        Subtype.ext htf
      rw [heq]
    · rw [Hand.tryFrom_eq_error_uniqueness h5 hc,
        Hand.tryFrom_eq_error_uniqueness (by omega) (htf ▸ hc), htf]
  · rw [Hand.tryFrom_eq_error_length h5,
      Hand.tryFrom_eq_error_length (by omega), hlen]

theorem classify_permutation_invariant_witness :
    (Hand.tryFrom royalListA).map classify =
      (Hand.tryFrom royalListB).map classify ∧
    classify fourAcesHand = classify fourAcesHand :=
  ⟨(classify_permutation_invariant fourAcesHand royalListA royalListB).2
      (by decide),
    (classify_permutation_invariant fourAcesHand [] []).1⟩

/-- C10: the length-2 check of `parse_card` measures UTF-8 byte length: any
input whose byte length differs from 2 is rejected with `Length` carrying
the byte count — in particular a 2-character string containing a
non-ASCII character has byte length bigger than 2 and is rejected with
`Length`, not `Rank` or `Suit`. -/
theorem length_check_counts_bytes (s : List Char) :
    (strLen s ≠ 2 → Card.fromStr s = some (.error (.Length (strLen s)))) ∧
    (s.length = 2 → (∃ c ∈ s, 0x80 ≤ c.toNat) →
      strLen s ≠ 2 ∧ Card.fromStr s = some (.error (.Length (strLen s)))) := by
  have hlen := (Card.fromStr_length_error s).mpr
  refine ⟨hlen, fun h2 hex => ?_⟩
  obtain ⟨a, b, rfl⟩ := List.length_eq_two.mp h2
  obtain ⟨c, hc, hge⟩ := hex
  have ha := utf8CharLen_pos a
  have hb := utf8CharLen_pos b
  have hcc := utf8CharLen_ge_two c hge
  have hne : strLen [a, b] ≠ 2 := by
    simp only [List.mem_cons, List.not_mem_nil, or_false] at hc
    have hsum : strLen [a, b] = utf8CharLen a + utf8CharLen b := by
      simp [strLen]
    rcases hc with rfl | rfl <;> omega
  exact ⟨hne, hlen hne⟩

theorem length_check_counts_bytes_witness :
    strLen ['é', 's'] ≠ 2 ∧
    Card.fromStr ['é', 's'] = some (.error (.Length (strLen ['é', 's']))) :=
  (length_check_counts_bytes ['é', 's']).2 (by decide) (by decide)

end CasePoker
